import Mathlib

/-!
# Verification of `euler::prime_table` (src/src/euler/prime_table.hpp)

Shallow embedding of the segmented Sieve of Eratosthenes prime table, its
primality query, its forward prime iterator, and the n-th prime bound
estimator, together with proofs about them.

Conventions:
* The C++ code is generic over an integral type `T`; all quantities that
  occur during a construction with limit `N ≥ 0` are non-negative, and the
  two truncated subtractions that occur at `N = 0` (`(N-1)/2` and
  `(SMALL_N-1)/2`, which C++ signed division sends to `0`) also evaluate to
  `0` under `Nat` truncated subtraction, so `Nat` is a value-faithful model.
* The packed bit store (`dynamic_bitset`, an external collaborator of the
  core, not part of `src/`) is modelled as a total function `Nat → Bool`
  plus its allocated size; in addition the store records the trace of all
  indices passed to `reset`, so that the safety claim "every access is in
  range" can be stated about the trace.  The collaborator contract is
  `test/set/reset` with indices in `[0, size)`.
-/

namespace euler

/-- Modelled from the spec: the integer square root collaborator
(`euler::isqrt` from `imath.hpp`, which is not under `src/`): the spec's
external-interface section fixes `isqrt(x) = floor(sqrt(x))` for
non-negative `x`, which is exactly `Nat.sqrt`. -/
def isqrt (x : Nat) : Nat := Nat.sqrt x

/-- Modelled from the spec: the packed-boolean-array collaborator
(`dynamic_bitset`, not under `src/`).  `bits` is the boolean content,
`size` the allocated bit count (contract: indices in `[0, size)`), and
`resets` instruments the store with the ordered trace of every index passed
to `reset` (the only mutating operation the sieve uses). -/
structure BitStore where
  size : Nat
  bits : Nat → Bool
  resets : List Nat

/-- `dynamic_bitset(n, value)`: `n` bits, all initialized to `value`. -/
def mkBitStore (n : Nat) (v : Bool) : BitStore :=
  ⟨n, fun _ => v, []⟩

/-- `bitset.reset(i)`: clear bit `i` (and record the access). -/
def BitStore.reset (s : BitStore) (i : Nat) : BitStore :=
  ⟨s.size, fun j => if j = i then false else s.bits j, s.resets ++ [i]⟩

/-- `bitset.test(i)` / `bitset[i]`: read bit `i`. -/
def BitStore.test (s : BitStore) (i : Nat) : Bool := s.bits i

/-- `nth_prime_bounds(n)` (prime_table.hpp lines 91-105).  Only the
`n < 6` branch is integral arithmetic; the `n ≥ 6` branch computes with
`long double` floating point, which is outside the shallow embedding, so
the result is `Option`-guarded: `some` on the embedded branch, `none` on
the floating-point branch. -/
def nth_prime_bounds (n : Nat) : Option (Nat × Nat) :=
  if n < 6 then some (2, 11) else none

/-- The window constant of the segmented phase:
`T window = 32*1000*16/2;` (prime_table.hpp line 190). -/
def window : Nat := 32 * 1000 * 16 / 2

/-- The bootstrap crossing loop
`for (; t <= SMALL_K; t += p) table.reset(t);` (lines 180-183),
returning the final store and the final value of `t`.  The extra `0 < p`
guard makes the recursion well-founded on all inputs; at every call site
`p = 2k+1 ≥ 3`, where the C++ loop and this definition agree. -/
def crossOutLe (s : BitStore) (p t bound : Nat) : BitStore × Nat :=
  if _h : t ≤ bound ∧ 0 < p then
    crossOutLe (s.reset t) p (t + p) bound
  else (s, t)
termination_by bound + 1 - t
decreasing_by omega

/-- The segmented-phase crossing loop
`for (; t < segment_end; t += p) table.reset(t);` (lines 200-203),
returning the final store and the final value of `t`.  Same `0 < p`
well-foundedness guard as `crossOutLe`. -/
def crossOutLt (s : BitStore) (p t bound : Nat) : BitStore × Nat :=
  if _h : t < bound ∧ 0 < p then
    crossOutLt (s.reset t) p (t + p) bound
  else (s, t)
termination_by bound - t
decreasing_by omega

/-- The bootstrap ("small primes") sieve loop (lines 174-187):
`for (T k = 1; k <= SMALL_K; k++) if (table.test(k)) { ... }`.
The C++ code pushes the prime `p = 2k+1` onto `prime_p` and the first
uncrossed multiple index onto `next_multiple_t`; since the two vectors are
only ever indexed in lockstep, they are modelled as one list of pairs. -/
def sieveSmall (s : BitStore) (k SK : Nat) (pts : List (Nat × Nat)) :
    BitStore × List (Nat × Nat) :=
  if _h : k ≤ SK then
    if s.test k then
      let r := crossOutLe s (k * 2 + 1) (2 * k * (k + 1)) SK
      sieveSmall r.1 (k + 1) SK (pts ++ [(k * 2 + 1, r.2)])
    else
      sieveSmall s (k + 1) SK pts
  else (s, pts)
termination_by SK + 1 - k
decreasing_by all_goals omega

/-- One window of the segmented phase (lines 194-206): for each recorded
small prime with pending multiple cursor `t`, if `t < segment_end` cross
out its multiples inside the window and persist the advanced cursor. -/
def sieveWindow (s : BitStore) (pts : List (Nat × Nat)) (segend : Nat) :
    BitStore × List (Nat × Nat) :=
  match pts with
  | [] => (s, [])
  | (p, t) :: rest =>
    if t < segend then
      let r := crossOutLt s p t segend
      let q := sieveWindow r.1 rest segend
      (q.1, (p, r.2) :: q.2)
    else
      let q := sieveWindow s rest segend
      (q.1, (p, t) :: q.2)

/-- The segmented-phase outer loop (lines 191-207):
`for (T segment_start = SMALL_K + 1; segment_start <= K; segment_start += window)`
with `segment_end = min(segment_start + window, K + 1)`. -/
def sieveSegments (s : BitStore) (pts : List (Nat × Nat)) (start K : Nat) :
    BitStore × List (Nat × Nat) :=
  if _h : start ≤ K then
    let r := sieveWindow s pts (min (start + window) (K + 1))
    sieveSegments r.1 r.2 (start + window) K
  else (s, pts)
termination_by K + 1 - start
decreasing_by
  have hw : window = 256000 := rfl
  omega

/-- The whole body of the constructor `prime_table::prime_table(T N)`
(lines 145-207, the active `USE_SEGMENTED_SIEVE` path): allocate
`(N+1)/2` bits all true, clear bit 0, bootstrap-sieve indices
`1..SMALL_K`, then sieve the windows covering `SMALL_K+1..K`. -/
def buildStore (N : Nat) : BitStore :=
  let s0 := (mkBitStore ((N + 1) / 2) true).reset 0
  let SMALL_K := (isqrt N - 1) / 2
  let r := sieveSmall s0 1 SMALL_K []
  (sieveSegments r.1 r.2 (SMALL_K + 1) ((N - 1) / 2)).1

/-- `prime_table<T>`: the limit `_limit` and the bit store `table`
(one bit per odd number, odd `n` at index `n/2`). -/
structure prime_table where
  _limit : Nat
  table : BitStore

/-- `prime_table::prime_table(T N)` as a function from the limit. -/
def prime_table.build (N : Nat) : prime_table :=
  ⟨N, buildStore N⟩

/-- `prime_table::limit()` (line 236). -/
def prime_table.limit (tb : prime_table) : Nat := tb._limit

/-- `prime_table::test_odd(n)` (lines 246-250): `return table[n/2];`.
Precondition (assert): `n` odd and positive. -/
def prime_table.test_odd (tb : prime_table) (n : Nat) : Bool :=
  tb.table.test (n / 2)

/-- `prime_table::test(n)` (lines 260-279).
Precondition (assert): `1 ≤ n ≤ _limit`. -/
def prime_table.test (tb : prime_table) (n : Nat) : Bool :=
  if n = 1 then false
  else if n = 2 then true
  else if n % 2 = 0 then false
  else tb.test_odd n

/-- `prime_iterator<T>`: a table (a `const&` in C++, copied here as a
value, which is faithful because tables are immutable once built) and the
current value; `_current = 0` is the end/sentinel state. -/
structure prime_iterator where
  _table : prime_table
  _current : Nat

/-- `prime_table::begin()` (line 282): always a cursor at value 2,
regardless of the limit. -/
def prime_table.begin (tb : prime_table) : prime_iterator := ⟨tb, 2⟩

/-- `prime_table::end()` (line 285); `end` is reserved in Lean. -/
def prime_table.endIter (tb : prime_table) : prime_iterator := ⟨tb, 0⟩

/-- The scan loop of `operator++` (lines 387-393):
`for (p = _current + 2; p <= limit; p += 2) if (test_odd(p)) break;`
packaged with the invariant that the result is `≥` the start value (used
for termination of the loops that repeatedly advance an iterator). -/
def scanOddAux (tb : prime_table) (p : Nat) : {q : Nat // p ≤ q} :=
  if h : p ≤ tb.limit then
    if tb.test_odd p then ⟨p, Nat.le_refl p⟩
    else
      let r := scanOddAux tb (p + 2)
      ⟨r.1, Nat.le_trans (by omega) r.2⟩
  else ⟨p, Nat.le_refl p⟩
termination_by tb.limit + 1 - p
decreasing_by omega

/-- `prime_iterator::operator++` (lines 376-398).  Precondition (assert):
`_current != 0`.  From 2 the candidate is 3 with no lookup; otherwise scan
odd candidates from `_current + 2`; finally
`_current = (p <= limit) ? p : 0`. -/
def prime_iterator.inc (it : prime_iterator) : prime_iterator :=
  let p := if it._current = 2 then 3 else (scanOddAux it._table (it._current + 2)).1
  ⟨it._table, if p ≤ it._table.limit then p else 0⟩

/-- `prime_iterator::operator==` (lines 404-407):
`return (_current == 0) && (it._current == 0);`. -/
def prime_iterator.eq (a b : prime_iterator) : Bool :=
  (a._current == 0) && (b._current == 0)

/-- `prime_iterator::operator!=` (lines 411-414). -/
def prime_iterator.ne (a b : prime_iterator) : Bool :=
  !(a.eq b)

/-- The loop of `prime_table::lower_bound(n)` (lines 297-305):
`while (it != end() && *it < n) ++it;`. -/
def lbLoop (it : prime_iterator) (n : Nat) : prime_iterator :=
  if it.ne it._table.endIter && decide (it._current < n) then
    lbLoop it.inc n
  else it
termination_by ((if it._current = 0 then 0 else 1), it._table.limit + 1 - it._current)
decreasing_by
  rename_i h
  have hcur : it._current ≠ 0 := by
    intro hc
    simp [prime_iterator.ne, prime_iterator.eq, prime_table.endIter, hc] at h
  simp only [prime_iterator.inc]
  by_cases h2 : it._current = 2
  · simp only [h2, if_true]
    by_cases h3 : 3 ≤ it._table.limit
    · simp only [if_pos h3]
      exact Prod.Lex.right' _ (by norm_num) (by omega)
    · simp only [if_neg h3]
      exact Prod.Lex.left _ _ (by norm_num)
  · simp only [if_neg h2]
    have hge := (scanOddAux it._table (it._current + 2)).2
    by_cases h3 : (scanOddAux it._table (it._current + 2)).1 ≤ it._table.limit
    · simp only [if_pos h3]
      refine Prod.Lex.right' _ ?_ ?_
      · rw [if_neg hcur]
        split <;> omega
      · omega
    · simp only [if_neg h3]
      exact Prod.Lex.left _ _ (by simp [hcur])

/-- `prime_table::lower_bound(n)` (lines 297-305). -/
def prime_table.lower_bound (tb : prime_table) (n : Nat) : prime_iterator :=
  lbLoop tb.begin n

/-- The value sequence visited by walking a cursor with `operator++` until
it compares equal to the end sentinel (`it != end`), i.e. the enumeration
`begin()` → `end()` when started at `begin()`. -/
def walkFrom (it : prime_iterator) : List Nat :=
  if it.ne it._table.endIter then
    it._current :: walkFrom it.inc
  else []
termination_by ((if it._current = 0 then 0 else 1), it._table.limit + 1 - it._current)
decreasing_by
  rename_i h
  have hcur : it._current ≠ 0 := by
    intro hc
    simp [prime_iterator.ne, prime_iterator.eq, prime_table.endIter, hc] at h
  simp only [prime_iterator.inc]
  by_cases h2 : it._current = 2
  · simp only [h2, if_true]
    by_cases h3 : 3 ≤ it._table.limit
    · simp only [if_pos h3]
      exact Prod.Lex.right' _ (by norm_num) (by omega)
    · simp only [if_neg h3]
      exact Prod.Lex.left _ _ (by norm_num)
  · simp only [if_neg h2]
    have hge := (scanOddAux it._table (it._current + 2)).2
    by_cases h3 : (scanOddAux it._table (it._current + 2)).1 ≤ it._table.limit
    · simp only [if_pos h3]
      refine Prod.Lex.right' _ ?_ ?_
      · rw [if_neg hcur]
        split <;> omega
      · omega
    · simp only [if_neg h3]
      exact Prod.Lex.left _ _ (by simp [hcur])

/-- Trial-division primality (the reference predicate of the spec's
correctness property): `n` is prime iff `n ≥ 2` and no `d` with
`2 ≤ d < n` divides `n`. -/
def trialDivisionPrime (n : Nat) : Bool :=
  decide (2 ≤ n) && (List.range n).all (fun d => decide (d < 2) || decide (¬ d ∣ n))

/-- Number of primes `≤ p`, counted by trial division. -/
def primeCountUpto (p : Nat) : Nat :=
  ((List.range (p + 1)).filter trialDivisionPrime).length

/-- `p` is the (1-based) `n`-th prime. -/
def IsNthPrime (n p : Nat) : Prop :=
  trialDivisionPrime p = true ∧ primeCountUpto p = n

/-- Number of odd integers in `[1, N]` (equivalently in `[0, N]`). -/
def oddCountUpto (N : Nat) : Nat :=
  ((List.range (N + 1)).filter (fun m => decide (m % 2 = 1))).length

/-- The index progression crossed out for the odd prime `2k+1`: the bit
index of `(2k+1)²` is `2k(k+1)`, and the step is `2k+1` (indices of the
odd multiples `(2k+1)(2k+1+2j)`). -/
def InProg (k i : Nat) : Prop :=
  ∃ j, i = 2 * k * (k + 1) + j * (2 * k + 1)

/-- `k` is the index of an odd prime recorded by the bootstrap phase with
small-sieve bound `SK`: `1 ≤ k ≤ SK` and `2k+1` prime. -/
def FoundIdx (SK k : Nat) : Prop :=
  1 ≤ k ∧ k ≤ SK ∧ Nat.Prime (2 * k + 1)

/-- The per-cursor contract of one window: the pair `b` after the window
relates to the pair `a` before it — same prime, cursor advanced to a
progression point at or beyond `segend`, and every progression point
passed over inside the window is cleared in the window's output bits. -/
def WindowRel (bitsF : Nat → Bool) (segend : Nat) (a b : Nat × Nat) : Prop :=
  a.1 = b.1 ∧ a.2 ≤ b.2 ∧ segend ≤ b.2 ∧
    (∀ q, a.1 = 2 * q + 1 → InProg q a.2 →
      (InProg q b.2 ∧
       ∀ u, InProg q u → a.2 ≤ u → u < b.2 → bitsF u = false))

/-- Invariant of cursors over a built table with limit `N`: the cursor is
either the end sentinel or sits at a prime in `[2, N]`. -/
def CursorInv (N : Nat) (it : prime_iterator) : Prop :=
  it._table = prime_table.build N ∧
    (it._current = 0 ∨
      (2 ≤ it._current ∧ it._current ≤ N ∧ Nat.Prime it._current))

/-- Cursors reachable from `begin()` or `lower_bound(n)` by applying
`operator++` only in non-end states (its asserted precondition). -/
inductive Reachable (tb : prime_table) : prime_iterator → Prop
  | begin : Reachable tb tb.begin
  | lower_bound (n : Nat) : Reachable tb (tb.lower_bound n)
  | step (it : prime_iterator) : Reachable tb it → it._current ≠ 0 →
      Reachable tb it.inc

/-! ## Basic lemmas about the bit store -/

theorem BitStore.reset_bits (s : BitStore) (i j : Nat) :
    (s.reset i).bits j = if j = i then false else s.bits j := rfl

theorem BitStore.reset_size (s : BitStore) (i : Nat) :
    (s.reset i).size = s.size := rfl

theorem BitStore.reset_resets (s : BitStore) (i : Nat) :
    (s.reset i).resets = s.resets ++ [i] := rfl

/-! ## The crossing progression: number-theoretic facts -/

/-- The value at progression point `2k(k+1) + j(2k+1)` is the odd multiple
`(2k+1)(2k+1+2j)` of `2k+1`. -/
theorem inProg_value {k i j : Nat} (h : i = 2 * k * (k + 1) + j * (2 * k + 1)) :
    2 * i + 1 = (2 * k + 1) * (2 * k + 1 + 2 * j) := by
  subst h; ring

/-- Progression points of a positive index carry composite values. -/
theorem inProg_not_prime {k i : Nat} (hk : 1 ≤ k) (h : InProg k i) :
    ¬ Nat.Prime (2 * i + 1) := by
  obtain ⟨j, hj⟩ := h
  rw [inProg_value hj]
  exact Nat.not_prime_mul (by omega) (by omega)

/-- Membership in the progression is stable under adding multiples of the
step `2k+1`. -/
theorem inProg_add {k t : Nat} (h : InProg k t) (j : Nat) :
    InProg k (t + j * (2 * k + 1)) := by
  obtain ⟨a, ha⟩ := h
  refine ⟨a + j, ?_⟩
  subst ha; ring

/-- Any progression point at or beyond another one is reached from it by
whole steps of `2k+1`. -/
theorem inProg_from {k t u : Nat} (ht : InProg k t) (hu : InProg k u)
    (htu : t ≤ u) : ∃ j, u = t + j * (2 * k + 1) := by
  obtain ⟨a, ha⟩ := ht
  obtain ⟨b, hb⟩ := hu
  have hab : a ≤ b := by
    by_contra hlt
    push_neg at hlt
    have hx : b * (2 * k + 1) < a * (2 * k + 1) :=
      mul_lt_mul_of_pos_right hlt (by omega)
    omega
  refine ⟨b - a, ?_⟩
  have h1 : (b - a) * (2 * k + 1) = b * (2 * k + 1) - a * (2 * k + 1) :=
    Nat.sub_mul b a (2 * k + 1)
  have h2 : a * (2 * k + 1) ≤ b * (2 * k + 1) := Nat.mul_le_mul_right _ hab
  omega

/-- If `2i+1 = P·m` with `P, m` odd and `2 ≤ P ≤ m`, then `i` lies on the
crossing progression of `P = 2k+1` with `k = (P-1)/2`. -/
theorem odd_factor_progression {i P m : Nat}
    (hP2 : 2 ≤ P) (hPodd : P % 2 = 1) (hmP : P ≤ m) (hmodd : m % 2 = 1)
    (hm : 2 * i + 1 = P * m) : InProg ((P - 1) / 2) i := by
  refine ⟨(m - P) / 2, ?_⟩
  have hkv : 2 * ((P - 1) / 2) + 1 = P := by omega
  have hjv : P + 2 * ((m - P) / 2) = m := by omega
  have key : (2 * ((P - 1) / 2) + 1) * (2 * ((P - 1) / 2) + 1 + 2 * ((m - P) / 2)) =
      2 * (2 * ((P - 1) / 2) * ((P - 1) / 2 + 1) +
        (m - P) / 2 * (2 * ((P - 1) / 2) + 1)) + 1 := by
    ring
  have hval : 2 * i + 1 =
      (2 * ((P - 1) / 2) + 1) * (2 * ((P - 1) / 2) + 1 + 2 * ((m - P) / 2)) := by
    rw [hkv, hjv]; exact hm
  omega

/-- Every composite odd number `2i+1` (with `i ≥ 1`) lies on the crossing
progression of some odd prime `2k+1` whose square does not exceed it:
the least prime factor witnesses this. -/
theorem composite_witness {i : Nat} (hi : 1 ≤ i)
    (hc : ¬ Nat.Prime (2 * i + 1)) :
    ∃ k, 1 ≤ k ∧ Nat.Prime (2 * k + 1) ∧
      (2 * k + 1) * (2 * k + 1) ≤ 2 * i + 1 ∧ InProg k i := by
  -- abstract the least prime factor and its cofactor
  obtain ⟨P, m, hPprime, hsq, hm⟩ :
      ∃ P m, P.Prime ∧ P * P ≤ 2 * i + 1 ∧ 2 * i + 1 = P * m := by
    refine ⟨(2 * i + 1).minFac, (2 * i + 1) / (2 * i + 1).minFac,
      Nat.minFac_prime (by omega), ?_, ?_⟩
    · have h := Nat.minFac_sq_le_self (by omega) hc
      calc (2 * i + 1).minFac * (2 * i + 1).minFac
          = (2 * i + 1).minFac ^ 2 := (sq _).symm
        _ ≤ 2 * i + 1 := h
    · exact (Nat.div_mul_cancel (Nat.minFac_dvd _)).symm.trans (Nat.mul_comm _ _)
  have hP2 : 2 ≤ P := hPprime.two_le
  have hPodd : P % 2 = 1 := by
    rcases hPprime.eq_two_or_odd with h2 | h2
    · subst h2; omega
    · exact h2
  have hmodd : m % 2 = 1 := by
    rcases Nat.even_or_odd m with he | ho
    · exfalso
      obtain ⟨c, hc2⟩ := he
      have hx : P * m = P * c + P * c := by rw [hc2]; ring
      omega
    · exact Nat.odd_iff.mp ho
  have hmP : P ≤ m := by
    by_contra hlt
    push_neg at hlt
    have hx : P * m < P * P := mul_lt_mul_of_pos_left hlt (by omega)
    omega
  have hP3 : 3 ≤ P := by omega
  refine ⟨(P - 1) / 2, by omega, ?_, ?_, odd_factor_progression hP2 hPodd hmP hmodd hm⟩
  · have hkv : 2 * ((P - 1) / 2) + 1 = P := by omega
    rw [hkv]; exact hPprime
  · have hkv : 2 * ((P - 1) / 2) + 1 = P := by omega
    rw [hkv]; exact hsq

/-! ## Characterization of the crossing loops -/

theorem crossOutLe_bits (s : BitStore) (p t bound : Nat) :
    0 < p → ∀ i, (((crossOutLe s p t bound).1.bits i = false) ↔
      (s.bits i = false ∨ ((∃ j, i = t + j * p) ∧ i ≤ bound))) := by
  induction s, p, t, bound using crossOutLe.induct with
  | case1 s p t bound h ih =>
    intro hp i
    rw [crossOutLe.eq_def, dif_pos h]
    rw [ih hp i]
    constructor
    · rintro (hres | ⟨⟨j, hj⟩, hb⟩)
      · rw [BitStore.reset_bits] at hres
        by_cases hit : i = t
        · exact Or.inr ⟨⟨0, by omega⟩, by omega⟩
        · rw [if_neg hit] at hres
          exact Or.inl hres
      · refine Or.inr ⟨⟨j + 1, ?_⟩, hb⟩
        have hjp : (j + 1) * p = j * p + p := by ring
        omega
    · rintro (hbit | ⟨⟨j, hj⟩, hb⟩)
      · refine Or.inl ?_
        rw [BitStore.reset_bits]
        by_cases hit : i = t
        · rw [if_pos hit]
        · rw [if_neg hit]; exact hbit
      · rcases j with _ | j
        · refine Or.inl ?_
          rw [BitStore.reset_bits, if_pos (by omega)]
        · refine Or.inr ⟨⟨j, ?_⟩, hb⟩
          have hjp : (j + 1) * p = j * p + p := by ring
          omega
  | case2 s p t bound h =>
    intro hp i
    rw [crossOutLe.eq_def, dif_neg h]
    have hgt : bound < t := by
      by_contra hle
      exact h ⟨by omega, hp⟩
    constructor
    · exact Or.inl
    · rintro (hbit | ⟨⟨j, hj⟩, hb⟩)
      · exact hbit
      · omega

theorem crossOutLe_snd (s : BitStore) (p t bound : Nat) :
    0 < p → ((∃ j, (crossOutLe s p t bound).2 = t + j * p) ∧
      bound < (crossOutLe s p t bound).2 ∧
      (∀ u j, u = t + j * p → u < (crossOutLe s p t bound).2 → u ≤ bound)) := by
  induction s, p, t, bound using crossOutLe.induct with
  | case1 s p t bound h ih =>
    intro hp
    rw [crossOutLe.eq_def, dif_pos h]
    obtain ⟨⟨j, hj⟩, hbd, hmin⟩ := ih hp
    refine ⟨⟨j + 1, ?_⟩, hbd, ?_⟩
    · have hjp : (j + 1) * p = j * p + p := by ring
      omega
    intro u j0 hu hlt
    rcases j0 with _ | j0
    · omega
    · refine hmin u j0 ?_ hlt
      have hjp : (j0 + 1) * p = j0 * p + p := by ring
      omega
  | case2 s p t bound h =>
    intro hp
    rw [crossOutLe.eq_def, dif_neg h]
    have hgt : bound < t := by
      by_contra hle
      exact h ⟨by omega, hp⟩
    refine ⟨⟨0, by omega⟩, hgt, ?_⟩
    intro u j0 hu hlt
    have : (0:Nat) ≤ j0 * p := by omega
    omega

theorem crossOutLe_size (s : BitStore) (p t bound : Nat) :
    (crossOutLe s p t bound).1.size = s.size := by
  induction s, p, t, bound using crossOutLe.induct with
  | case1 s p t bound h ih =>
    rw [crossOutLe.eq_def, dif_pos h]
    rw [ih, BitStore.reset_size]
  | case2 s p t bound h =>
    rw [crossOutLe.eq_def, dif_neg h]

theorem crossOutLe_resets (s : BitStore) (p t bound : Nat) :
    ∀ x ∈ (crossOutLe s p t bound).1.resets,
      x ∈ s.resets ∨ (t ≤ x ∧ x ≤ bound) := by
  induction s, p, t, bound using crossOutLe.induct with
  | case1 s p t bound h ih =>
    rw [crossOutLe.eq_def, dif_pos h]
    intro x hx
    rcases ih x hx with hmem | hrange
    · rw [BitStore.reset_resets, List.mem_append, List.mem_singleton] at hmem
      rcases hmem with hmem | hmem
      · exact Or.inl hmem
      · exact Or.inr ⟨by omega, by omega⟩
    · exact Or.inr ⟨by omega, hrange.2⟩
  | case2 s p t bound h =>
    rw [crossOutLe.eq_def, dif_neg h]
    intro x hx
    exact Or.inl hx

theorem crossOutLt_bits (s : BitStore) (p t bound : Nat) :
    0 < p → ∀ i, (((crossOutLt s p t bound).1.bits i = false) ↔
      (s.bits i = false ∨ ((∃ j, i = t + j * p) ∧ i < bound))) := by
  induction s, p, t, bound using crossOutLt.induct with
  | case1 s p t bound h ih =>
    intro hp i
    rw [crossOutLt.eq_def, dif_pos h]
    rw [ih hp i]
    constructor
    · rintro (hres | ⟨⟨j, hj⟩, hb⟩)
      · rw [BitStore.reset_bits] at hres
        by_cases hit : i = t
        · exact Or.inr ⟨⟨0, by omega⟩, by omega⟩
        · rw [if_neg hit] at hres
          exact Or.inl hres
      · refine Or.inr ⟨⟨j + 1, ?_⟩, hb⟩
        have hjp : (j + 1) * p = j * p + p := by ring
        omega
    · rintro (hbit | ⟨⟨j, hj⟩, hb⟩)
      · refine Or.inl ?_
        rw [BitStore.reset_bits]
        by_cases hit : i = t
        · rw [if_pos hit]
        · rw [if_neg hit]; exact hbit
      · rcases j with _ | j
        · refine Or.inl ?_
          rw [BitStore.reset_bits, if_pos (by omega)]
        · refine Or.inr ⟨⟨j, ?_⟩, hb⟩
          have hjp : (j + 1) * p = j * p + p := by ring
          omega
  | case2 s p t bound h =>
    intro hp i
    rw [crossOutLt.eq_def, dif_neg h]
    have hgt : bound ≤ t := by
      by_contra hle
      exact h ⟨by omega, hp⟩
    constructor
    · exact Or.inl
    · rintro (hbit | ⟨⟨j, hj⟩, hb⟩)
      · exact hbit
      · omega

theorem crossOutLt_snd (s : BitStore) (p t bound : Nat) :
    0 < p → ((∃ j, (crossOutLt s p t bound).2 = t + j * p) ∧
      bound ≤ (crossOutLt s p t bound).2 ∧ t ≤ (crossOutLt s p t bound).2 ∧
      (∀ u j, u = t + j * p → u < (crossOutLt s p t bound).2 → u < bound)) := by
  induction s, p, t, bound using crossOutLt.induct with
  | case1 s p t bound h ih =>
    intro hp
    rw [crossOutLt.eq_def, dif_pos h]
    obtain ⟨⟨j, hj⟩, hbd, hge, hmin⟩ := ih hp
    refine ⟨⟨j + 1, ?_⟩, hbd, by omega, ?_⟩
    · have hjp : (j + 1) * p = j * p + p := by ring
      omega
    intro u j0 hu hlt
    rcases j0 with _ | j0
    · omega
    · refine hmin u j0 ?_ hlt
      have hjp : (j0 + 1) * p = j0 * p + p := by ring
      omega
  | case2 s p t bound h =>
    intro hp
    rw [crossOutLt.eq_def, dif_neg h]
    have hgt : bound ≤ t := by
      by_contra hle
      exact h ⟨by omega, hp⟩
    refine ⟨⟨0, by omega⟩, hgt, by omega, ?_⟩
    intro u j0 hu hlt
    have : (0:Nat) ≤ j0 * p := by omega
    omega

theorem crossOutLt_size (s : BitStore) (p t bound : Nat) :
    (crossOutLt s p t bound).1.size = s.size := by
  induction s, p, t, bound using crossOutLt.induct with
  | case1 s p t bound h ih =>
    rw [crossOutLt.eq_def, dif_pos h]
    rw [ih, BitStore.reset_size]
  | case2 s p t bound h =>
    rw [crossOutLt.eq_def, dif_neg h]

theorem crossOutLt_resets (s : BitStore) (p t bound : Nat) :
    ∀ x ∈ (crossOutLt s p t bound).1.resets,
      x ∈ s.resets ∨ (t ≤ x ∧ x < bound) := by
  induction s, p, t, bound using crossOutLt.induct with
  | case1 s p t bound h ih =>
    rw [crossOutLt.eq_def, dif_pos h]
    intro x hx
    rcases ih x hx with hmem | hrange
    · rw [BitStore.reset_resets, List.mem_append, List.mem_singleton] at hmem
      rcases hmem with hmem | hmem
      · exact Or.inl hmem
      · exact Or.inr ⟨by omega, by omega⟩
    · exact Or.inr ⟨by omega, hrange.2⟩
  | case2 s p t bound h =>
    rw [crossOutLt.eq_def, dif_neg h]
    intro x hx
    exact Or.inl hx

/-! ## The bootstrap phase -/

/-- The raw progression produced by `crossOutLe`/`crossOutLt` for the
prime `p = k*2+1` starting at index `2k(k+1)` is the progression
`InProg k`. -/
theorem raw_prog_iff (k i : Nat) :
    (∃ j, i = 2 * k * (k + 1) + j * (k * 2 + 1)) ↔ InProg k i := by
  constructor <;> rintro ⟨j, hj⟩ <;> refine ⟨j, ?_⟩ <;>
    have hx : j * (k * 2 + 1) = j * (2 * k + 1) := by ring
  all_goals omega

/-- Any index on the crossing progression of `k ≥ 1` is strictly larger
than `k` itself (the progression starts at the index of `(2k+1)²`). -/
theorem inProg_gt {k i : Nat} (hk : 1 ≤ k) (h : InProg k i) : k < i := by
  obtain ⟨j, hj⟩ := h
  have h1 : 2 * k * (k + 1) = 2 * (k * k) + 2 * k := by ring
  have h2 : (0:Nat) ≤ j * (2 * k + 1) := Nat.zero_le _
  have h3 : (0:Nat) ≤ k * k := Nat.zero_le _
  omega

/-- Loop invariant and postcondition of the bootstrap phase
(`sieveSmall`).  Precondition: indices `< k` are decided (bit cleared iff
composite), indices `≥ k` are cleared iff they lie (within `[0, SK]`) on
the progression of an already-found prime, and `pts` holds exactly one
cursor per found prime, parked at its first progression point `> SK`.
Postcondition: the same at `k = SK+1`, i.e. `[1, SK]` decided, everything
`> SK` still set, cursors exactly the primes `2q+1` with `1 ≤ q ≤ SK`. -/
theorem sieveSmall_spec (s : BitStore) (k SK : Nat) (pts : List (Nat × Nat)) :
    1 ≤ k → k ≤ SK + 1 →
    s.bits 0 = false →
    (∀ i, 1 ≤ i → i < k → (s.bits i = false ↔ ¬ Nat.Prime (2 * i + 1))) →
    (∀ i, k ≤ i → (s.bits i = false ↔
        ∃ q, 1 ≤ q ∧ q < k ∧ Nat.Prime (2 * q + 1) ∧ InProg q i ∧ i ≤ SK)) →
    (∀ pr ∈ pts, ∃ q, 1 ≤ q ∧ q < k ∧ pr.1 = 2 * q + 1 ∧
        Nat.Prime (2 * q + 1) ∧ InProg q pr.2 ∧ SK < pr.2 ∧
        (∀ u, InProg q u → u < pr.2 → u ≤ SK)) →
    (∀ q, 1 ≤ q → q < k → Nat.Prime (2 * q + 1) →
        ∃ t, (2 * q + 1, t) ∈ pts) →
    ((sieveSmall s k SK pts).1.bits 0 = false ∧
     (∀ i, 1 ≤ i → i ≤ SK → ((sieveSmall s k SK pts).1.bits i = false ↔
        ¬ Nat.Prime (2 * i + 1))) ∧
     (∀ i, SK < i → (sieveSmall s k SK pts).1.bits i = true) ∧
     (∀ pr ∈ (sieveSmall s k SK pts).2, ∃ q, FoundIdx SK q ∧
        pr.1 = 2 * q + 1 ∧ InProg q pr.2 ∧ SK < pr.2 ∧
        (∀ u, InProg q u → u < pr.2 → u ≤ SK)) ∧
     (∀ q, FoundIdx SK q → ∃ t, (2 * q + 1, t) ∈ (sieveSmall s k SK pts).2)) := by
  induction s, k, SK, pts using sieveSmall.induct with
  | case1 s k SK pts hk htest r ih =>
    intro hk1 hk2 Hb0 Hdec Hpend Hpts Hcomp
    rw [sieveSmall.eq_def, dif_pos hk, if_pos htest]
    have hbk : s.bits k = true := htest
    -- the index reached by the loop is prime
    have hkprime : Nat.Prime (2 * k + 1) := by
      by_contra hcomp
      obtain ⟨q, hq1, hqp, hqsq, hqprog⟩ := composite_witness (by omega) hcomp
      have h3 : 3 ≤ 2 * q + 1 := by omega
      have hmul : 3 * (2 * q + 1) ≤ (2 * q + 1) * (2 * q + 1) :=
        Nat.mul_le_mul_right _ h3
      have hqk : q < k := by omega
      have hbf := (Hpend k (Nat.le_refl k)).mpr
        ⟨q, hq1, hqk, hqp, hqprog, by omega⟩
      rw [hbf] at hbk
      exact Bool.false_ne_true hbk
    have hp3 : 0 < k * 2 + 1 := by omega
    have hCbits := crossOutLe_bits s (k * 2 + 1) (2 * k * (k + 1)) SK hp3
    obtain ⟨⟨jC, hjC⟩, hCgt, hCmin⟩ :=
      crossOutLe_snd s (k * 2 + 1) (2 * k * (k + 1)) SK hp3
    -- crossing only touches indices strictly above k
    have hsame : ∀ i, i ≤ k →
        ((crossOutLe s (k * 2 + 1) (2 * k * (k + 1)) SK).1.bits i = false ↔
          s.bits i = false) := by
      intro i hik
      rw [hCbits i]
      constructor
      · rintro (hb | ⟨hprog, hle⟩)
        · exact hb
        · have := inProg_gt hk1 ((raw_prog_iff k i).mp hprog)
          omega
      · exact Or.inl
    refine ih (by omega) (by omega) ?_ ?_ ?_ ?_ ?_
    · -- bit 0 still cleared
      exact (hsame 0 (by omega)).mpr Hb0
    · -- decided region now includes k
      intro i hi1 hik
      rcases Nat.lt_or_ge i k with hlt | hge
      · rw [hsame i (by omega)]
        exact Hdec i hi1 hlt
      · have hik2 : i = k := by omega
        subst hik2
        rw [hsame i (Nat.le_refl i)]
      
        constructor
        · intro hf
          rw [hf] at hbk
          exact absurd hbk (by simp)
        · intro hnp
          exact absurd hkprime hnp
    · -- pending region
      intro i hi
      rw [hCbits i]
      constructor
      · rintro (hb | ⟨hprog, hle⟩)
        · obtain ⟨q, hq1, hqk, hqp, hqprog, hqle⟩ := (Hpend i (by omega)).mp hb
          exact ⟨q, hq1, by omega, hqp, hqprog, hqle⟩
        · exact ⟨k, by omega, by omega, hkprime, (raw_prog_iff k i).mp hprog, hle⟩
      · rintro ⟨q, hq1, hqk1, hqp, hqprog, hqle⟩
        rcases Nat.lt_or_ge q k with hqk | hqk
        · exact Or.inl ((Hpend i (by omega)).mpr ⟨q, hq1, hqk, hqp, hqprog, hqle⟩)
        · have hqe : q = k := by omega
          subst hqe
          exact Or.inr ⟨(raw_prog_iff q i).mpr hqprog, hqle⟩
    · -- cursor list
      intro pr hpr
      rw [List.mem_append, List.mem_singleton] at hpr
      rcases hpr with hpr | hpr
      · obtain ⟨q, hq1, hqk, hqeq, hqp, hqprog, hqgt, hqmin⟩ := Hpts pr hpr
        exact ⟨q, hq1, by omega, hqeq, hqp, hqprog, hqgt, hqmin⟩
      · subst hpr
        refine ⟨k, hk1, by omega, by ring, hkprime, ?_, hCgt, ?_⟩
        · exact (raw_prog_iff k _).mp ⟨jC, hjC⟩
        · intro u hu hult
          obtain ⟨j, hj⟩ := (raw_prog_iff k u).mpr hu
          exact hCmin u j hj hult
    · -- completeness of the cursor list
      intro q hq1 hqk1 hqp
      rcases Nat.lt_or_ge q k with hqk | hqk
      · obtain ⟨t, ht⟩ := Hcomp q hq1 hqk hqp
        exact ⟨t, List.mem_append_left _ ht⟩
      · have hqe : q = k := by omega
        subst hqe
        refine ⟨(crossOutLe s (q * 2 + 1) (2 * q * (q + 1)) SK).2, ?_⟩
        have hqq : 2 * q + 1 = q * 2 + 1 := by ring
        rw [hqq]
        exact List.mem_append_right _ (List.mem_singleton_self _)
  | case2 s k SK pts hk htest ih =>
    intro hk1 hk2 Hb0 Hdec Hpend Hpts Hcomp
    rw [sieveSmall.eq_def, dif_pos hk, if_neg htest]
    have hbk : s.bits k = false := by
      rcases hb : s.bits k with _ | _
      · rfl
      · exact absurd hb htest
    have hkcomp : ¬ Nat.Prime (2 * k + 1) := by
      obtain ⟨q, hq1, hqk, hqp, hqprog, hqle⟩ := (Hpend k (Nat.le_refl k)).mp hbk
      exact inProg_not_prime hq1 hqprog
    refine ih (by omega) (by omega) Hb0 ?_ ?_ ?_ ?_
    · intro i hi1 hik
      rcases Nat.lt_or_ge i k with hlt | hge
      · exact Hdec i hi1 hlt
      · have hik2 : i = k := by omega
        subst hik2
        constructor
        · intro _; exact hkcomp
        · intro _; exact hbk
    · intro i hi
      rw [Hpend i (by omega)]
      constructor
      · rintro ⟨q, hq1, hqk, hqp, hqprog, hqle⟩
        exact ⟨q, hq1, by omega, hqp, hqprog, hqle⟩
      · rintro ⟨q, hq1, hqk1, hqp, hqprog, hqle⟩
        rcases Nat.lt_or_ge q k with hqk | hqk
        · exact ⟨q, hq1, hqk, hqp, hqprog, hqle⟩
        · have hqe : q = k := by omega
          subst hqe
          exact absurd hqp hkcomp
    · intro pr hpr
      obtain ⟨q, hq1, hqk, hqeq, hqp, hqprog, hqgt, hqmin⟩ := Hpts pr hpr
      exact ⟨q, hq1, by omega, hqeq, hqp, hqprog, hqgt, hqmin⟩
    · intro q hq1 hqk1 hqp
      rcases Nat.lt_or_ge q k with hqk | hqk
      · exact Hcomp q hq1 hqk hqp
      · have hqe : q = k := by omega
        subst hqe
        exact absurd hqp hkcomp
  | case3 s k SK pts hk =>
    intro hk1 hk2 Hb0 Hdec Hpend Hpts Hcomp
    rw [sieveSmall.eq_def, dif_neg hk]
    have hke : k = SK + 1 := by omega
    subst hke
    refine ⟨Hb0, ?_, ?_, ?_, ?_⟩
    · intro i hi1 hile
      exact Hdec i hi1 (by omega)
    · intro i higt
      rcases hbi : s.bits i with _ | _
      · obtain ⟨q, hq1, hqk, hqp, hqprog, hqle⟩ := (Hpend i (by omega)).mp hbi
        omega
      · rfl
    · intro pr hpr
      obtain ⟨q, hq1, hqk, hqeq, hqp, hqprog, hqgt, hqmin⟩ := Hpts pr hpr
      exact ⟨q, ⟨hq1, by omega, hqp⟩, hqeq, hqprog, hqgt, hqmin⟩
    · intro q hq
      obtain ⟨hq1, hqle, hqp⟩ := hq
      exact Hcomp q hq1 (by omega) hqp

/-! ## The segmented phase: one window -/

/-- Full characterization of one window of the segmented phase. -/
theorem sieveWindow_spec (pts : List (Nat × Nat)) :
    ∀ s segend,
    (∀ pr ∈ pts, ∃ q, 1 ≤ q ∧ pr.1 = 2 * q + 1 ∧ InProg q pr.2) →
    ((∀ i, s.bits i = false → (sieveWindow s pts segend).1.bits i = false) ∧
     (∀ i, (sieveWindow s pts segend).1.bits i = false →
        s.bits i = false ∨ ∃ q, 1 ≤ q ∧ InProg q i ∧ i < segend ∧
          ∃ pr ∈ pts, pr.1 = 2 * q + 1 ∧ pr.2 ≤ i) ∧
     (∀ b ∈ (sieveWindow s pts segend).2, ∃ a ∈ pts,
        WindowRel (sieveWindow s pts segend).1.bits segend a b) ∧
     (∀ a ∈ pts, ∃ b ∈ (sieveWindow s pts segend).2,
        WindowRel (sieveWindow s pts segend).1.bits segend a b)) := by
  induction pts with
  | nil =>
    intro s segend _
    refine ⟨fun i h => h, fun i h => Or.inl h, ?_, ?_⟩
    · intro b hb
      exact absurd hb (List.not_mem_nil b)
    · intro a ha
      exact absurd ha (List.not_mem_nil a)
  | cons hd rest ih =>
    intro s segend Hp
    obtain ⟨p, t⟩ := hd
    obtain ⟨q, hq1, hpq, hprog⟩ := Hp (p, t) (List.mem_cons_self _ _)
    dsimp only at hpq hprog
    have hp0 : 0 < p := by omega
    have Hrest : ∀ pr ∈ rest, ∃ q0, 1 ≤ q0 ∧ pr.1 = 2 * q0 + 1 ∧ InProg q0 pr.2 :=
      fun pr hpr => Hp pr (List.mem_cons_of_mem _ hpr)
    by_cases hts : t < segend
    · -- the cursor lies inside the window: cross out and advance
      simp only [sieveWindow, if_pos hts]
      have hCbits := crossOutLt_bits s p t segend hp0
      obtain ⟨⟨jr, hjr⟩, hsegle, htle, hmin⟩ := crossOutLt_snd s p t segend hp0
      obtain ⟨ihW0, ihW1, ihW2a, ihW2b⟩ :=
        ih (crossOutLt s p t segend).1 segend Hrest
      -- the advanced cursor still lies on the progression, and the points
      -- it passed over are cleared in the final bits of the window
      have hheadrel : WindowRel
          (sieveWindow (crossOutLt s p t segend).1 rest segend).1.bits segend
          (p, t) (p, (crossOutLt s p t segend).2) := by
        refine ⟨rfl, htle, hsegle, ?_⟩
        intro q0 hq0 hprog0
        dsimp only at hq0 hprog0
        have hstep : InProg q0 (crossOutLt s p t segend).2 := by
          rw [hjr, hq0]
          exact inProg_add hprog0 jr
        refine ⟨hstep, ?_⟩
        intro u hu hut hultr
        obtain ⟨j0, hj0⟩ := inProg_from hprog0 hu hut
        rw [← hq0] at hj0
        have husege : u < segend := hmin u j0 hj0 hultr
        refine ihW0 u ?_
        rw [hCbits u]
        exact Or.inr ⟨⟨j0, hj0⟩, husege⟩
      refine ⟨?_, ?_, ?_, ?_⟩
      · intro i hbi
        refine ihW0 i ?_
        rw [hCbits i]
        exact Or.inl hbi
      · intro i hbi
        rcases ihW1 i hbi with hb | ⟨q0, hq01, hq0prog, hq0lt, pr, hprmem, hpr1, hpr2⟩
        · rw [hCbits i] at hb
          rcases hb with hb | ⟨⟨j0, hj0⟩, hisege⟩
          · exact Or.inl hb
          · refine Or.inr ⟨q, hq1, ?_, hisege, (p, t), List.mem_cons_self _ _, hpq, by dsimp only; omega⟩
            have := inProg_add hprog j0
            rw [hpq] at hj0
            rw [hj0]
            exact this
        · exact Or.inr ⟨q0, hq01, hq0prog, hq0lt, pr,
            List.mem_cons_of_mem _ hprmem, hpr1, hpr2⟩
      · intro b hb
        rcases List.mem_cons.mp hb with hb | hb
        · subst hb
          exact ⟨(p, t), List.mem_cons_self _ _, hheadrel⟩
        · obtain ⟨a, hamem, harel⟩ := ihW2a b hb
          exact ⟨a, List.mem_cons_of_mem _ hamem, harel⟩
      · intro a ha
        rcases List.mem_cons.mp ha with ha | ha
        · subst ha
          exact ⟨(p, (crossOutLt s p t segend).2), List.mem_cons_self _ _, hheadrel⟩
        · obtain ⟨b, hbmem, hbrel⟩ := ihW2b a ha
          exact ⟨b, List.mem_cons_of_mem _ hbmem, hbrel⟩
    · -- the cursor is beyond the window: untouched
      simp only [sieveWindow, if_neg hts]
      obtain ⟨ihW0, ihW1, ihW2a, ihW2b⟩ := ih s segend Hrest
      have hheadrel : WindowRel
          (sieveWindow s rest segend).1.bits segend (p, t) (p, t) := by
        refine ⟨rfl, Nat.le_refl t, by omega, ?_⟩
        intro q0 hq0 hprog0
        dsimp only at hq0 hprog0
        refine ⟨hprog0, ?_⟩
        intro u hu hut hultr
        dsimp only at hut hultr
        omega
      refine ⟨?_, ?_, ?_, ?_⟩
      · exact ihW0
      · intro i hbi
        rcases ihW1 i hbi with hb | ⟨q0, hq01, hq0prog, hq0lt, pr, hprmem, hpr1, hpr2⟩
        · exact Or.inl hb
        · exact Or.inr ⟨q0, hq01, hq0prog, hq0lt, pr,
            List.mem_cons_of_mem _ hprmem, hpr1, hpr2⟩
      · intro b hb
        rcases List.mem_cons.mp hb with hb | hb
        · subst hb
          exact ⟨(p, t), List.mem_cons_self _ _, hheadrel⟩
        · obtain ⟨a, hamem, harel⟩ := ihW2a b hb
          exact ⟨a, List.mem_cons_of_mem _ hamem, harel⟩
      · intro a ha
        rcases List.mem_cons.mp ha with ha | ha
        · subst ha
          exact ⟨(p, t), List.mem_cons_self _ _, hheadrel⟩
        · obtain ⟨b, hbmem, hbrel⟩ := ihW2b a ha
          exact ⟨b, List.mem_cons_of_mem _ hbmem, hbrel⟩

/-! ## The segmented phase: all windows -/

/-- Unfolding equation for one iteration of the segmented loop. -/
theorem sieveSegments_step (s : BitStore) (pts : List (Nat × Nat)) (start K : Nat)
    (h : start ≤ K) :
    sieveSegments s pts start K =
      sieveSegments (sieveWindow s pts (min (start + window) (K + 1))).1
        (sieveWindow s pts (min (start + window) (K + 1))).2 (start + window) K := by
  rw [sieveSegments.eq_def, dif_pos h]

/-- Unfolding equation for loop exit of the segmented loop. -/
theorem sieveSegments_end (s : BitStore) (pts : List (Nat × Nat)) (start K : Nat)
    (h : ¬ start ≤ K) : sieveSegments s pts start K = (s, pts) := by
  rw [sieveSegments.eq_def, dif_neg h]

/-- The loop-exit part of the segmented-phase invariant: when no window
remains, each bit in `(SK, K]` is cleared iff it is a progression point of
a found prime. -/
theorem sieveSegments_spec_done (SK : Nat) (s : BitStore) (pts : List (Nat × Nat))
    (start K : Nat) (hgt : ¬ start ≤ K)
    (Hb0 : s.bits 0 = false)
    (Hsmall : ∀ i, 1 ≤ i → i ≤ SK → (s.bits i = false ↔ ¬ Nat.Prime (2 * i + 1)))
    (Hcross : ∀ i, SK < i → s.bits i = false → ∃ q, FoundIdx SK q ∧ InProg q i)
    (Hcur : ∀ pr ∈ pts, ∃ q, FoundIdx SK q ∧ pr.1 = 2 * q + 1 ∧ InProg q pr.2 ∧
        SK < pr.2 ∧ min start (K + 1) ≤ pr.2 ∧
        (∀ u, InProg q u → SK < u → u < pr.2 → s.bits u = false))
    (Hcomp : ∀ q, FoundIdx SK q → ∃ t, (2 * q + 1, t) ∈ pts) :
    (s.bits 0 = false ∧
     (∀ i, 1 ≤ i → i ≤ SK → (s.bits i = false ↔ ¬ Nat.Prime (2 * i + 1))) ∧
     (∀ i, SK < i → i ≤ K → (s.bits i = false ↔
        ∃ q, FoundIdx SK q ∧ InProg q i))) := by
  refine ⟨Hb0, Hsmall, ?_⟩
  intro i hiSK hiK
  constructor
  · exact Hcross i hiSK
  · rintro ⟨q, hqF, hqprog⟩
    obtain ⟨t, ht⟩ := Hcomp q hqF
    obtain ⟨q2, hq2F, h21, h22, h2SK, h2min, h2passed⟩ := Hcur (2 * q + 1, t) ht
    dsimp only at h21 h22 h2SK h2min h2passed
    have hqq : q2 = q := by omega
    subst hqq
    refine h2passed i hqprog hiSK ?_
    omega

/-- Loop invariant and postcondition of the segmented phase
(`sieveSegments`).  Precondition (state when about to process the window
starting at `start`): the region `[1, SK]` is decided; above `SK` only
progression points of found primes are ever cleared; each cursor sits on
its progression at or beyond `min start (K+1)`, strictly above `SK`, with
every progression point strictly between `SK` and the cursor already
cleared; and there is a cursor for every found prime.  Postcondition: for
`SK < i ≤ K`, bit `i` is cleared iff `i` is a progression point of a found
prime. -/
theorem sieveSegments_spec (SK K : Nat) :
    ∀ m s pts start, K + 1 - start ≤ m →
    SK < start →
    s.bits 0 = false →
    (∀ i, 1 ≤ i → i ≤ SK → (s.bits i = false ↔ ¬ Nat.Prime (2 * i + 1))) →
    (∀ i, SK < i → s.bits i = false → ∃ q, FoundIdx SK q ∧ InProg q i) →
    (∀ pr ∈ pts, ∃ q, FoundIdx SK q ∧ pr.1 = 2 * q + 1 ∧ InProg q pr.2 ∧
        SK < pr.2 ∧ min start (K + 1) ≤ pr.2 ∧
        (∀ u, InProg q u → SK < u → u < pr.2 → s.bits u = false)) →
    (∀ q, FoundIdx SK q → ∃ t, (2 * q + 1, t) ∈ pts) →
    ((sieveSegments s pts start K).1.bits 0 = false ∧
     (∀ i, 1 ≤ i → i ≤ SK → ((sieveSegments s pts start K).1.bits i = false ↔
        ¬ Nat.Prime (2 * i + 1))) ∧
     (∀ i, SK < i → i ≤ K → ((sieveSegments s pts start K).1.bits i = false ↔
        ∃ q, FoundIdx SK q ∧ InProg q i))) := by
  intro m
  induction m with
  | zero =>
    intro s pts start hm hSK Hb0 Hsmall Hcross Hcur Hcomp
    have hgt : ¬ start ≤ K := by omega
    rw [sieveSegments_end s pts start K hgt]
    exact sieveSegments_spec_done SK s pts start K hgt Hb0 Hsmall Hcross Hcur Hcomp
  | succ m ihm =>
    intro s pts start hm hSK Hb0 Hsmall Hcross Hcur Hcomp
    by_cases hle : start ≤ K
    · rw [sieveSegments_step s pts start K hle]
      obtain ⟨W0, W1, W2a, W2b⟩ :=
        sieveWindow_spec pts s (min (start + window) (K + 1))
          (fun pr hpr => by
            obtain ⟨q, hqF, h1, h2, _⟩ := Hcur pr hpr
            exact ⟨q, hqF.1, h1, h2⟩)
      refine ihm _ _ _ ?_ (by omega) ?_ ?_ ?_ ?_ ?_
      · have hw : window = 256000 := rfl
        omega
      · exact W0 0 Hb0
      · -- region [1, SK] is untouched by the window
        intro i hi1 hiSK
        constructor
        · intro hf
          rcases W1 i hf with hb | ⟨q0, hq01, hq0prog, hq0lt, pr, hprmem, hpr1, hpr2⟩
          · exact (Hsmall i hi1 hiSK).mp hb
          · obtain ⟨q, hqF, h1, h2, hSKpr, _⟩ := Hcur pr hprmem
            omega
        · intro hnp
          exact W0 i ((Hsmall i hi1 hiSK).mpr hnp)
      · -- only progression points of found primes are cleared
        intro i hiSK hf
        rcases W1 i hf with hb | ⟨q0, hq01, hq0prog, hq0lt, pr, hprmem, hpr1, hpr2⟩
        · exact Hcross i hiSK hb
        · obtain ⟨q, hqF, h1, h2, _⟩ := Hcur pr hprmem
          have hqq : q = q0 := by omega
          subst hqq
          exact ⟨q, hqF, hq0prog⟩
      · -- the advanced cursors satisfy the invariant for the next window
        intro pr hpr
        obtain ⟨a, hamem, harel⟩ := W2a pr hpr
        obtain ⟨q, hqF, ha1, haprog, haSK, hamin, hapassed⟩ := Hcur a hamem
        obtain ⟨hrel1, hrel2, hrel3, hrel4⟩ := harel
        obtain ⟨hprprog, hprpassed⟩ := hrel4 q ha1 haprog
        refine ⟨q, hqF, by omega, hprprog, by omega, hrel3, ?_⟩
        intro u hu hSKu hupr
        rcases Nat.lt_or_ge u a.2 with hua | hua
        · exact W0 u (hapassed u hu hSKu hua)
        · exact hprpassed u hu hua hupr
      · -- completeness of the cursor list is preserved
        intro q hqF
        obtain ⟨t, ht⟩ := Hcomp q hqF
        obtain ⟨b, hbmem, hbrel⟩ := W2b (2 * q + 1, t) ht
        refine ⟨b.2, ?_⟩
        have hb1 : b.1 = 2 * q + 1 := by
          have := hbrel.1
          dsimp only at this
          omega
        have hbe : b = (2 * q + 1, b.2) := by
          rw [Prod.ext_iff]
          exact ⟨hb1, rfl⟩
        rw [← hbe]
        exact hbmem
    · rw [sieveSegments_end s pts start K hle]
      exact sieveSegments_spec_done SK s pts start K hle Hb0 Hsmall Hcross Hcur Hcomp

/-! ## Master correctness of the constructed bit store -/

/-- The bit store built by the constructor holds, at every index
`i ≤ (N-1)/2` (the index range of the odd numbers `3..N`, together with
index 0 for the number 1), the exact primality of `2i+1`: the bit is set
iff `i ≥ 1` and `2i+1` is prime. -/
theorem buildStore_bits (N : Nat) (hN : 1 ≤ N) :
    ∀ i, i ≤ (N - 1) / 2 →
      ((buildStore N).bits i = true ↔ (1 ≤ i ∧ Nat.Prime (2 * i + 1))) := by
  have hbuild : buildStore N =
      (sieveSegments
        (sieveSmall ((mkBitStore ((N + 1) / 2) true).reset 0) 1 ((isqrt N - 1) / 2) []).1
        (sieveSmall ((mkBitStore ((N + 1) / 2) true).reset 0) 1 ((isqrt N - 1) / 2) []).2
        ((isqrt N - 1) / 2 + 1) ((N - 1) / 2)).1 := rfl
  have hs0bits : ∀ i, ((mkBitStore ((N + 1) / 2) true).reset 0).bits i =
      if i = 0 then false else true := by
    intro i
    rw [BitStore.reset_bits]
    rcases Nat.eq_zero_or_pos i with h0 | h0
    · subst h0; rfl
    · rw [if_neg (by omega), if_neg (by omega)]
      rfl
  obtain ⟨Ab0, Asmall, Ahigh, Apts, Acomp⟩ :=
    sieveSmall_spec ((mkBitStore ((N + 1) / 2) true).reset 0) 1 ((isqrt N - 1) / 2) []
      (Nat.le_refl 1) (by omega)
      (by rw [hs0bits 0]; rfl)
      (fun i hi1 hik => by omega)
      (fun i hi => by
        rw [hs0bits i, if_neg (by omega)]
        constructor
        · intro hf; exact absurd hf (by simp)
        · rintro ⟨q, hq1, hqlt, _⟩; omega)
      (fun pr hpr => absurd hpr (List.not_mem_nil pr))
      (fun q hq1 hqlt _ => by omega)
  obtain ⟨Sb0, Ssmall, Sfin⟩ :=
    sieveSegments_spec ((isqrt N - 1) / 2) ((N - 1) / 2) ((N - 1) / 2 + 1)
      (sieveSmall ((mkBitStore ((N + 1) / 2) true).reset 0) 1 ((isqrt N - 1) / 2) []).1
      (sieveSmall ((mkBitStore ((N + 1) / 2) true).reset 0) 1 ((isqrt N - 1) / 2) []).2
      ((isqrt N - 1) / 2 + 1)
      (by omega) (by omega) Ab0 Asmall
      (fun i hi hf => by
        have ht := Ahigh i hi
        rw [ht] at hf
        exact absurd hf (by simp))
      (fun pr hpr => by
        obtain ⟨q, hqF, heq, hprog, hSKlt, hmin⟩ := Apts pr hpr
        refine ⟨q, hqF, heq, hprog, hSKlt, by omega, ?_⟩
        intro u hu hSKu hult
        exact absurd (hmin u hu hult) (by omega))
      Acomp
  intro i hiK
  rw [hbuild]
  rcases Nat.eq_zero_or_pos i with h0 | h1
  · subst h0
    rw [Sb0]
    constructor
    · intro hf; exact absurd hf (by simp)
    · rintro ⟨h, _⟩; omega
  · rcases le_or_lt i ((isqrt N - 1) / 2) with hSK | hSK
    · -- small region: decided by the bootstrap phase
      have hiff := Ssmall i h1 hSK
      constructor
      · intro ht
        refine ⟨h1, ?_⟩
        by_contra hnp
        have := hiff.mpr hnp
        rw [ht] at this
        exact absurd this (by simp)
      · rintro ⟨_, hp⟩
        rcases hb : (sieveSegments
            (sieveSmall ((mkBitStore ((N + 1) / 2) true).reset 0) 1 ((isqrt N - 1) / 2) []).1
            (sieveSmall ((mkBitStore ((N + 1) / 2) true).reset 0) 1 ((isqrt N - 1) / 2) []).2
            ((isqrt N - 1) / 2 + 1) ((N - 1) / 2)).1.bits i with _ | _
        · exact absurd hp (hiff.mp hb)
        · rfl
    · -- segmented region: cleared iff on a found prime progression
      have hiff := Sfin i hSK hiK
      have hbridge : (∃ q, FoundIdx ((isqrt N - 1) / 2) q ∧ InProg q i) ↔
          ¬ Nat.Prime (2 * i + 1) := by
        constructor
        · rintro ⟨q, ⟨hq1, _, _⟩, hqprog⟩
          exact inProg_not_prime hq1 hqprog
        · intro hnp
          obtain ⟨q, hq1, hqp, hqsq, hqprog⟩ := composite_witness h1 hnp
          have h2iN : 2 * i + 1 ≤ N := by omega
          have hsqN : (2 * q + 1) * (2 * q + 1) ≤ N := by omega
          have hle : 2 * q + 1 ≤ isqrt N := Nat.le_sqrt.mpr hsqN
          exact ⟨q, ⟨hq1, by omega, hqp⟩, hqprog⟩
      constructor
      · intro ht
        refine ⟨h1, ?_⟩
        by_contra hnp
        have := hiff.mpr (hbridge.mpr hnp)
        rw [ht] at this
        exact absurd this (by simp)
      · rintro ⟨_, hp⟩
        rcases hb : (sieveSegments
            (sieveSmall ((mkBitStore ((N + 1) / 2) true).reset 0) 1 ((isqrt N - 1) / 2) []).1
            (sieveSmall ((mkBitStore ((N + 1) / 2) true).reset 0) 1 ((isqrt N - 1) / 2) []).2
            ((isqrt N - 1) / 2 + 1) ((N - 1) / 2)).1.bits i with _ | _
        · exact absurd hp (hbridge.mp (hiff.mp hb))
        · rfl

/-! ## Primality queries against the built table -/

/-- `test_odd` on a built table answers exact primality for odd
`3 ≤ n ≤ N`. -/
theorem test_odd_build (N n : Nat) (hN : 1 ≤ N) (hodd : n % 2 = 1) (h3 : 3 ≤ n)
    (hn : n ≤ N) : ((prime_table.build N).test_odd n = true ↔ Nat.Prime n) := by
  have hidx : n / 2 ≤ (N - 1) / 2 := by omega
  have hbit := buildStore_bits N hN (n / 2) hidx
  have heq : (prime_table.build N).test_odd n = (buildStore N).bits (n / 2) := rfl
  rw [heq, hbit]
  have h2 : 2 * (n / 2) + 1 = n := by omega
  rw [h2]
  constructor
  · rintro ⟨_, hp⟩; exact hp
  · intro hp; exact ⟨by omega, hp⟩

/-- The trial-division predicate agrees with `Nat.Prime`. -/
theorem trialDivisionPrime_iff (n : Nat) :
    (trialDivisionPrime n = true ↔ Nat.Prime n) := by
  unfold trialDivisionPrime
  rw [Bool.and_eq_true, decide_eq_true_eq, List.all_eq_true]
  constructor
  · rintro ⟨h2, hall⟩
    rw [Nat.prime_def_lt]
    refine ⟨h2, ?_⟩
    intro m hm hdvd
    by_contra hm1
    have hx := hall m (by rw [List.mem_range]; exact hm)
    rw [Bool.or_eq_true, decide_eq_true_eq, decide_eq_true_eq] at hx
    rcases hx with hlt | hndvd
    · interval_cases m
      · have := Nat.eq_zero_of_zero_dvd hdvd; omega
      · exact hm1 rfl
    · exact hndvd hdvd
  · intro hp
    have hp' := hp
    rw [Nat.prime_def_lt] at hp'
    obtain ⟨h2, hmin⟩ := hp'
    refine ⟨h2, ?_⟩
    intro d hd
    rw [List.mem_range] at hd
    rw [Bool.or_eq_true, decide_eq_true_eq, decide_eq_true_eq]
    by_cases hd2 : d < 2
    · exact Or.inl hd2
    · refine Or.inr ?_
      intro hdvd
      have := hmin d hd hdvd
      omega

/-- `test` on a built table answers exact primality for `1 ≤ n ≤ N`. -/
theorem test_build (N n : Nat) (hN : 1 ≤ N) (h1 : 1 ≤ n) (hn : n ≤ N) :
    ((prime_table.build N).test n = true ↔ Nat.Prime n) := by
  unfold prime_table.test
  by_cases hn1 : n = 1
  · subst hn1
    rw [if_pos rfl]
    constructor
    · intro h; exact absurd h (by simp)
    · intro hp; exact absurd hp Nat.not_prime_one
  · rw [if_neg hn1]
    by_cases hn2 : n = 2
    · subst hn2
      rw [if_pos rfl]
      simp [Nat.prime_two]
    · rw [if_neg hn2]
      by_cases heven : n % 2 = 0
      · rw [if_pos heven]
        constructor
        · intro h; exact absurd h (by simp)
        · intro hp
          exfalso
          exact hn2 ((Nat.Prime.even_iff hp).mp (Nat.even_iff.mpr heven))
      · rw [if_neg heven]
        exact test_odd_build N n hN (by omega) (by omega) hn

/-! ## Size and access-trace facts about the construction -/

theorem sieveSmall_size (s : BitStore) (k SK : Nat) (pts : List (Nat × Nat)) :
    (sieveSmall s k SK pts).1.size = s.size := by
  induction s, k, SK, pts using sieveSmall.induct with
  | case1 s k SK pts hk htest r ih =>
    rw [sieveSmall.eq_def, dif_pos hk, if_pos htest]
    rw [ih, crossOutLe_size]
  | case2 s k SK pts hk htest ih =>
    rw [sieveSmall.eq_def, dif_pos hk, if_neg htest]
    exact ih
  | case3 s k SK pts hk =>
    rw [sieveSmall.eq_def, dif_neg hk]

theorem sieveSmall_resets (s : BitStore) (k SK : Nat) (pts : List (Nat × Nat)) :
    ∀ x ∈ (sieveSmall s k SK pts).1.resets, x ∈ s.resets ∨ x ≤ SK := by
  induction s, k, SK, pts using sieveSmall.induct with
  | case1 s k SK pts hk htest r ih =>
    rw [sieveSmall.eq_def, dif_pos hk, if_pos htest]
    intro x hx
    rcases ih x hx with hmem | hle
    · rcases crossOutLe_resets s (k * 2 + 1) (2 * k * (k + 1)) SK x hmem with h2 | h2
      · exact Or.inl h2
      · exact Or.inr h2.2
    · exact Or.inr hle
  | case2 s k SK pts hk htest ih =>
    rw [sieveSmall.eq_def, dif_pos hk, if_neg htest]
    exact ih
  | case3 s k SK pts hk =>
    rw [sieveSmall.eq_def, dif_neg hk]
    exact fun x hx => Or.inl hx

theorem sieveWindow_size (pts : List (Nat × Nat)) :
    ∀ s segend, (sieveWindow s pts segend).1.size = s.size := by
  induction pts with
  | nil => intro s segend; rfl
  | cons hd rest ih =>
    intro s segend
    obtain ⟨p, t⟩ := hd
    by_cases hts : t < segend
    · simp only [sieveWindow, if_pos hts]
      rw [ih, crossOutLt_size]
    · simp only [sieveWindow, if_neg hts]
      exact ih s segend

theorem sieveWindow_resets (pts : List (Nat × Nat)) :
    ∀ s segend, ∀ x ∈ (sieveWindow s pts segend).1.resets,
      x ∈ s.resets ∨ x < segend := by
  induction pts with
  | nil => intro s segend x hx; exact Or.inl hx
  | cons hd rest ih =>
    intro s segend x hx
    obtain ⟨p, t⟩ := hd
    by_cases hts : t < segend
    · simp only [sieveWindow, if_pos hts] at hx
      rcases ih _ segend x hx with hmem | hlt
      · rcases crossOutLt_resets s p t segend x hmem with hmem2 | hrange
        · exact Or.inl hmem2
        · exact Or.inr hrange.2
      · exact Or.inr hlt
    · simp only [sieveWindow, if_neg hts] at hx
      exact ih s segend x hx

theorem sieveSegments_size (K : Nat) :
    ∀ m s pts start, K + 1 - start ≤ m →
      (sieveSegments s pts start K).1.size = s.size := by
  intro m
  induction m with
  | zero =>
    intro s pts start hm
    rw [sieveSegments_end s pts start K (by omega)]
  | succ m ihm =>
    intro s pts start hm
    by_cases hle : start ≤ K
    · rw [sieveSegments_step s pts start K hle]
      rw [ihm _ _ _ (by have hw : window = 256000 := rfl; omega)]
      exact sieveWindow_size pts s (min (start + window) (K + 1))
    · rw [sieveSegments_end s pts start K hle]

theorem sieveSegments_resets (K : Nat) :
    ∀ m s pts start, K + 1 - start ≤ m →
      ∀ x ∈ (sieveSegments s pts start K).1.resets,
        x ∈ s.resets ∨ x < K + 1 := by
  intro m
  induction m with
  | zero =>
    intro s pts start hm x hx
    rw [sieveSegments_end s pts start K (by omega)] at hx
    exact Or.inl hx
  | succ m ihm =>
    intro s pts start hm x hx
    by_cases hle : start ≤ K
    · rw [sieveSegments_step s pts start K hle] at hx
      rcases ihm _ _ _ (by have hw : window = 256000 := rfl; omega) x hx with hmem | hlt
      · rcases sieveWindow_resets pts s (min (start + window) (K + 1)) x hmem with
          hmem2 | hlt2
        · exact Or.inl hmem2
        · refine Or.inr ?_
          have := Nat.min_le_right (start + window) (K + 1)
          omega
      · exact Or.inr hlt
    · rw [sieveSegments_end s pts start K hle] at hx
      exact Or.inl hx

/-- The allocated size of the built store is `(N+1)/2`, i.e. `⌊(N+1)/2⌋`
under C++ integer division. -/
theorem buildStore_size (N : Nat) : (buildStore N).size = (N + 1) / 2 := by
  have hbuild : buildStore N =
      (sieveSegments
        (sieveSmall ((mkBitStore ((N + 1) / 2) true).reset 0) 1 ((isqrt N - 1) / 2) []).1
        (sieveSmall ((mkBitStore ((N + 1) / 2) true).reset 0) 1 ((isqrt N - 1) / 2) []).2
        ((isqrt N - 1) / 2 + 1) ((N - 1) / 2)).1 := rfl
  rw [hbuild]
  rw [sieveSegments_size ((N - 1) / 2) ((N - 1) / 2 + 1) _ _ _ (by omega)]
  rw [sieveSmall_size, BitStore.reset_size]
  rfl

/-- Every index ever passed to `reset` during a construction with limit
`N ≥ 1` lies inside `[0, (N+1)/2)`, the allocated range of the store. -/
theorem buildStore_resets_in_range (N : Nat) (hN : 1 ≤ N) :
    ∀ x ∈ (buildStore N).resets, x < (N + 1) / 2 := by
  have hbuild : buildStore N =
      (sieveSegments
        (sieveSmall ((mkBitStore ((N + 1) / 2) true).reset 0) 1 ((isqrt N - 1) / 2) []).1
        (sieveSmall ((mkBitStore ((N + 1) / 2) true).reset 0) 1 ((isqrt N - 1) / 2) []).2
        ((isqrt N - 1) / 2 + 1) ((N - 1) / 2)).1 := rfl
  intro x hx
  rw [hbuild] at hx
  have hsk : (isqrt N - 1) / 2 ≤ (N - 1) / 2 := by
    have := Nat.sqrt_le_self N
    have h2 : isqrt N ≤ N := this
    omega
  rcases sieveSegments_resets ((N - 1) / 2) ((N - 1) / 2 + 1) _ _ _ (by omega) x hx with
    hmem | hlt
  · rcases sieveSmall_resets _ _ _ _ x hmem with hmem2 | hle
    · have h0 : ((mkBitStore ((N + 1) / 2) true).reset 0).resets = [0] := rfl
      rw [h0, List.mem_singleton] at hmem2
      omega
    · omega
  · omega

/-! ## The iterator scan loop -/

/-- Characterization of the `operator++` scan loop: the result is reached
from the start value in steps of 2; if it is within the limit its bit is
set; and every candidate strictly before it is within the limit with its
bit clear. -/
theorem scanOddAux_spec_fuel (tb : prime_table) :
    ∀ m p0, tb.limit + 1 - p0 ≤ m →
    ((∃ j, (scanOddAux tb p0).1 = p0 + 2 * j) ∧
     ((scanOddAux tb p0).1 ≤ tb.limit → tb.test_odd (scanOddAux tb p0).1 = true) ∧
     (∀ j, p0 + 2 * j < (scanOddAux tb p0).1 →
       (p0 + 2 * j ≤ tb.limit ∧ tb.test_odd (p0 + 2 * j) = false))) := by
  intro m
  induction m with
  | zero =>
    intro p0 hm
    have hx : ¬ p0 ≤ tb.limit := by omega
    have hval : (scanOddAux tb p0).1 = p0 := by
      rw [scanOddAux.eq_def, dif_neg hx]
    rw [hval]
    exact ⟨⟨0, by omega⟩, fun hle => absurd hle hx, fun j hj => by omega⟩
  | succ m ihm =>
    intro p0 hm
    by_cases hx : p0 ≤ tb.limit
    · by_cases htest : tb.test_odd p0 = true
      · have hval : (scanOddAux tb p0).1 = p0 := by
          rw [scanOddAux.eq_def, dif_pos hx, if_pos htest]
        rw [hval]
        exact ⟨⟨0, by omega⟩, fun _ => htest, fun j hj => by omega⟩
      · have hval : (scanOddAux tb p0).1 = (scanOddAux tb (p0 + 2)).1 := by
          rw [scanOddAux.eq_def, dif_pos hx, if_neg htest]
        rw [hval]
        obtain ⟨⟨j, hj⟩, hhit, hskip⟩ := ihm (p0 + 2) (by omega)
        refine ⟨⟨j + 1, by omega⟩, hhit, ?_⟩
        intro j0 hj0
        rcases j0 with _ | j0
        · constructor
          · simpa using hx
          · simp only [Nat.mul_zero, Nat.add_zero]
            rcases ht : tb.test_odd p0 with _ | _
            · rfl
            · exact absurd ht htest
        · have hx2 : p0 + 2 * (j0 + 1) = (p0 + 2) + 2 * j0 := by omega
          rw [hx2]
          rw [hx2] at hj0
          exact hskip j0 hj0
    · have hval : (scanOddAux tb p0).1 = p0 := by
        rw [scanOddAux.eq_def, dif_neg hx]
      rw [hval]
      exact ⟨⟨0, by omega⟩, fun hle => absurd hle hx, fun j hj => by omega⟩

/-- Characterization of the `operator++` scan loop: the result is reached
from the start value in steps of 2; if it is within the limit its bit is
set; and every candidate strictly before it is within the limit with its
bit clear. -/
theorem scanOddAux_spec (tb : prime_table) (p0 : Nat) :
    (∃ j, (scanOddAux tb p0).1 = p0 + 2 * j) ∧
    ((scanOddAux tb p0).1 ≤ tb.limit → tb.test_odd (scanOddAux tb p0).1 = true) ∧
    (∀ j, p0 + 2 * j < (scanOddAux tb p0).1 →
      (p0 + 2 * j ≤ tb.limit ∧ tb.test_odd (p0 + 2 * j) = false)) :=
  scanOddAux_spec_fuel tb (tb.limit + 1) p0 (by omega)

/-- Advancing a cursor that sits at a prime `v ≤ N` of a built table
yields the smallest prime in `(v, N]`, or the end state if there is
none. -/
theorem inc_next_prime (N v : Nat) (hvp : Nat.Prime v) (hvN : v ≤ N) :
    ((((⟨prime_table.build N, v⟩ : prime_iterator).inc)._current = 0 ∧
      ∀ u, v < u → u ≤ N → ¬ Nat.Prime u) ∨
    (v < ((⟨prime_table.build N, v⟩ : prime_iterator).inc)._current ∧
      ((⟨prime_table.build N, v⟩ : prime_iterator).inc)._current ≤ N ∧
      Nat.Prime ((⟨prime_table.build N, v⟩ : prime_iterator).inc)._current ∧
      ∀ u, v < u → u < ((⟨prime_table.build N, v⟩ : prime_iterator).inc)._current →
        ¬ Nat.Prime u)) := by
  have hN : 1 ≤ N := by
    have := hvp.two_le
    omega
  have hlim : (prime_table.build N).limit = N := rfl
  by_cases hv2 : v = 2
  · subst hv2
    have hcur : ((⟨prime_table.build N, 2⟩ : prime_iterator).inc)._current =
        if 3 ≤ N then 3 else 0 := by
      simp only [prime_iterator.inc, hlim]
      norm_num
    by_cases h3 : 3 ≤ N
    · rw [hcur, if_pos h3]
      refine Or.inr ⟨by omega, h3, by norm_num, ?_⟩
      intro u hu1 hu2
      omega
    · rw [hcur, if_neg h3]
      refine Or.inl ⟨rfl, ?_⟩
      intro u hu1 hu2 hup
      omega
  · -- v is an odd prime at least 3
    have hvodd : v % 2 = 1 := by
      rcases hvp.eq_two_or_odd with h | h
      · exact absurd h hv2
      · exact h
    have hv3 : 3 ≤ v := by
      have := hvp.two_le
      omega
    obtain ⟨⟨jw, hjw⟩, hhit, hskip⟩ := scanOddAux_spec (prime_table.build N) (v + 2)
    have hcur : ((⟨prime_table.build N, v⟩ : prime_iterator).inc)._current =
        if (scanOddAux (prime_table.build N) (v + 2)).1 ≤ N
        then (scanOddAux (prime_table.build N) (v + 2)).1 else 0 := by
      simp only [prime_iterator.inc, if_neg hv2, hlim]
    -- no prime lies strictly between v and the scan result
    have hnone : ∀ u, v < u → u < (scanOddAux (prime_table.build N) (v + 2)).1 →
        ¬ Nat.Prime u := by
      intro u hu1 hu2 hup
      have hu2' : 2 < u := by omega
      have huodd : u % 2 = 1 := by
        rcases hup.eq_two_or_odd with h | h
        · omega
        · exact h
      have huv2 : v + 2 ≤ u := by omega
      have hform : u = v + 2 + 2 * ((u - (v + 2)) / 2) := by omega
      obtain ⟨huin, hubit⟩ := hskip ((u - (v + 2)) / 2) (by omega)
      rw [← hform] at huin hubit
      rw [hlim] at huin
      have := (test_odd_build N u hN huodd (by omega) huin).mpr hup
      rw [this] at hubit
      exact absurd hubit (by simp)
    by_cases hwle : (scanOddAux (prime_table.build N) (v + 2)).1 ≤ N
    · rw [hcur, if_pos hwle]
      have hwodd : (scanOddAux (prime_table.build N) (v + 2)).1 % 2 = 1 := by omega
      have hw3 : 3 ≤ (scanOddAux (prime_table.build N) (v + 2)).1 := by omega
      have hwbit := hhit (by rw [hlim]; exact hwle)
      have hwp : Nat.Prime (scanOddAux (prime_table.build N) (v + 2)).1 :=
        (test_odd_build N _ hN hwodd hw3 hwle).mp hwbit
      exact Or.inr ⟨by omega, hwle, hwp, hnone⟩
    · rw [hcur, if_neg hwle]
      refine Or.inl ⟨rfl, ?_⟩
      intro u hu1 hu2
      exact hnone u hu1 (by omega)

/-! ## The cursor invariant -/

theorem inc_cursorInv (N : Nat) (it : prime_iterator)
    (hinv : CursorInv N it) (hcur : it._current ≠ 0) :
    CursorInv N it.inc := by
  obtain ⟨htb, hrest⟩ := hinv
  rcases hrest with hz | ⟨h2, hle, hp⟩
  · exact absurd hz hcur
  · obtain ⟨tb, v⟩ := it
    dsimp only at htb h2 hle hp hcur
    subst htb
    have htbinc : (⟨prime_table.build N, v⟩ : prime_iterator).inc._table =
        prime_table.build N := rfl
    rcases inc_next_prime N v hp hle with ⟨hz, _⟩ | ⟨hlt, hle2, hp2, _⟩
    · exact ⟨htbinc, Or.inl hz⟩
    · exact ⟨htbinc, Or.inr ⟨by omega, hle2, hp2⟩⟩

theorem lbLoop_inv (N : Nat) :
    ∀ it n, CursorInv N it → CursorInv N (lbLoop it n) := by
  intro it n
  induction it, n using lbLoop.induct with
  | case1 it n hguard ih =>
    intro hinv
    rw [lbLoop.eq_def, if_pos hguard]
    apply ih
    have hcur : it._current ≠ 0 := by
      intro hc
      simp [prime_iterator.ne, prime_iterator.eq, prime_table.endIter, hc] at hguard
    exact inc_cursorInv N it hinv hcur
  | case2 it n hguard =>
    intro hinv
    rw [lbLoop.eq_def, if_neg hguard]
    exact hinv

/-- Every cursor reachable (via `begin`, `lower_bound`, and `++` in
non-end states) over a built table with limit `N ≥ 2` satisfies the
invariant. -/
theorem reachable_cursorInv (N : Nat) (hN : 2 ≤ N) (it : prime_iterator)
    (hr : Reachable (prime_table.build N) it) : CursorInv N it := by
  have hb : (prime_table.build N).begin._current = 2 := rfl
  induction hr with
  | begin =>
    refine ⟨rfl, Or.inr ?_⟩
    rw [hb]
    exact ⟨by omega, by omega, by norm_num⟩
  | lower_bound n =>
    refine lbLoop_inv N (prime_table.build N).begin n ⟨rfl, Or.inr ?_⟩
    rw [hb]
    exact ⟨by omega, by omega, by norm_num⟩
  | step it2 hr2 hcur ih => exact inc_cursorInv N it2 ih hcur

/-! ## Concrete evaluations at tiny limits -/

/-- With limit 1 the enumeration from `begin()` visits the value 2 (the
cursor starts at 2 unconditionally) and then reaches the end state. -/
theorem walk_build_one : walkFrom ((prime_table.build 1).begin) = [2] := by
  have hstep : walkFrom ((prime_table.build 1).begin) =
      2 :: walkFrom (((prime_table.build 1).begin).inc) := by
    rw [walkFrom.eq_def]
    rfl
  have hinc : ((prime_table.build 1).begin).inc =
      (prime_table.build 1).endIter := rfl
  have hend : walkFrom ((prime_table.build 1).endIter) = [] := by
    rw [walkFrom.eq_def]
    rfl
  rw [hstep, hinc, hend]

/-- With limit 1, `lower_bound(1)` returns the cursor at value 2 (it never
checks that 2 is actually in the table). -/
theorem lb_build_one : ((prime_table.build 1).lower_bound 1)._current = 2 := by
  have h1 : (prime_table.build 1).lower_bound 1 =
      lbLoop ((prime_table.build 1).begin) 1 := rfl
  rw [h1, lbLoop.eq_def]
  rfl

/-- The construction with `N = 0` performs exactly one store access: the
forced `reset(0)`. -/
theorem buildStore_zero : buildStore 0 = (mkBitStore 0 true).reset 0 := by
  have h1 : buildStore 0 =
      (sieveSegments
        (sieveSmall ((mkBitStore 0 true).reset 0) 1 ((isqrt 0 - 1) / 2) []).1
        (sieveSmall ((mkBitStore 0 true).reset 0) 1 ((isqrt 0 - 1) / 2) []).2
        ((isqrt 0 - 1) / 2 + 1) 0).1 := rfl
  have hsq : (isqrt 0 - 1) / 2 = 0 := by
    have h0 : isqrt 0 = 0 := Nat.sqrt_zero
    omega
  rw [h1, hsq]
  rw [sieveSmall.eq_def, dif_neg (by omega : ¬ (1:Nat) ≤ 0)]
  rw [sieveSegments_end _ _ _ _ (by omega : ¬ (1:Nat) ≤ 0)]

/-- The number of odd integers in `[1, N]` is `(N+1)/2`. -/
theorem oddCountUpto_eq (N : Nat) : oddCountUpto N = (N + 1) / 2 := by
  induction N with
  | zero => rfl
  | succ n ih =>
    unfold oddCountUpto at ih ⊢
    rw [List.range_succ, List.filter_append, List.length_append, ih]
    simp only [List.filter_cons, List.filter_nil]
    by_cases hp : (n + 1) % 2 = 1
    · rw [if_pos (by simpa using hp)]
      simp only [List.length_cons, List.length_nil]
      omega
    · rw [if_neg (by simpa using hp)]
      simp only [List.length_nil]
      omega

/-! ## The claims -/

/-- C1: for every limit `N ≥ 1` and every `1 ≤ n ≤ N`, the table built
from `N` satisfies `test(n) = true` iff `n` is prime (equal to
trial-division primality); in particular `test(1) = false`,
`test(2) = true`, `test(n) = false` for every other even `n`, and for odd
`n ≥ 3` the result is the bit stored at index `n/2` by the segmented
sieve. -/
theorem claim1_test_matches_trial_division (N n : Nat) (hN : 1 ≤ N)
    (h1 : 1 ≤ n) (hn : n ≤ N) :
    (prime_table.build N).test n = trialDivisionPrime n ∧
    (prime_table.build N).test 1 = false ∧
    (2 ≤ N → (prime_table.build N).test 2 = true) ∧
    (n % 2 = 0 → n ≠ 2 → (prime_table.build N).test n = false) ∧
    (n % 2 = 1 → 3 ≤ n →
      (prime_table.build N).test n = (prime_table.build N).table.test (n / 2)) := by
  refine ⟨?_, rfl, fun _ => rfl, ?_, ?_⟩
  · rw [Bool.eq_iff_iff, test_build N n hN h1 hn, trialDivisionPrime_iff]
  · intro he hne
    unfold prime_table.test
    rw [if_neg (by omega), if_neg hne, if_pos he]
  · intro ho h3
    unfold prime_table.test
    rw [if_neg (by omega), if_neg (by omega), if_neg (by omega)]
    rfl

/-- Witness for C1 at `N = 30`, `n = 29`. -/
theorem claim1_witness :
    (1 ≤ 30 ∧ 1 ≤ 29 ∧ 29 ≤ 30) ∧
    ((prime_table.build 30).test 29 = trialDivisionPrime 29 ∧
     (prime_table.build 30).test 1 = false ∧
     (2 ≤ 30 → (prime_table.build 30).test 2 = true) ∧
     (29 % 2 = 0 → 29 ≠ 2 → (prime_table.build 30).test 29 = false) ∧
     (29 % 2 = 1 → 3 ≤ 29 →
       (prime_table.build 30).test 29 = (prime_table.build 30).table.test (29 / 2))) :=
  ⟨by omega, claim1_test_matches_trial_division 30 29 (by omega) (by omega) (by omega)⟩

/-- C2 (evaluation at the failing input `N = 1`): the walk from `begin()`
to the end state visits the single value 2, although no prime is `≤ 1`, so
the enumeration is not the ascending list of the primes `≤ N`. -/
theorem claim2_walk_visits_two_at_limit_one :
    walkFrom ((prime_table.build 1).begin) = [2] ∧
    (prime_table.build 1).limit < 2 ∧
    ¬ Nat.Prime 1 :=
  ⟨walk_build_one, by decide, by norm_num⟩

/-- C3 (evaluation at the failing input `N = 1`): `begin()` of a table
with no primes is a cursor at value 2, not the end state, and it compares
unequal to `end()`, so the walk is nonempty. -/
theorem claim3_begin_not_end_at_limit_one :
    ((prime_table.build 1).begin)._current = 2 ∧
    ((prime_table.build 1).begin).eq ((prime_table.build 1).endIter) = false ∧
    (prime_table.build 1).limit < 2 :=
  ⟨rfl, rfl, by decide⟩

/-- C4 (counterexample at `N = 0`): the claim asserts that construction
with `N = 0` is valid and that every reset index is inside
`[0, allocated-size)`; but at `N = 0` the store is allocated with 0 bits
while the constructor still performs the forced `reset(0)` — an access at
index 0, outside `[0, 0)`. -/
theorem claim4_counterexample :
    0 ∈ (buildStore 0).resets ∧ (prime_table.build 0).table.size = 0 := by
  constructor
  · rw [buildStore_zero]
    exact List.mem_singleton_self 0
  · exact buildStore_size 0

/-- C4 (amended): for every `N ≥ 1`, every bit-store access recorded
during construction (the forced clear of bit 0, the bootstrap-phase
resets, and the segmented-phase resets) has an index inside
`[0, size-of-the-allocated-store)`; and the `N = 1` table has no primes
reachable through `test`. -/
theorem claim4_resets_in_range (N : Nat) (hN : 1 ≤ N) :
    (∀ x ∈ (buildStore N).resets, x < (prime_table.build N).table.size) ∧
    (∀ n, 1 ≤ n → n ≤ 1 → (prime_table.build 1).test n = false) := by
  constructor
  · intro x hx
    have hs : (prime_table.build N).table.size = (N + 1) / 2 := buildStore_size N
    rw [hs]
    exact buildStore_resets_in_range N hN x hx
  · intro n h1 h2
    have hn : n = 1 := by omega
    subst hn
    rfl

/-- Witness for C4 at `N = 1`. -/
theorem claim4_witness :
    (1 ≤ 1) ∧
    ((∀ x ∈ (buildStore 1).resets, x < (prime_table.build 1).table.size) ∧
     (∀ n, 1 ≤ n → n ≤ 1 → (prime_table.build 1).test n = false)) :=
  ⟨by omega, claim4_resets_in_range 1 (by omega)⟩

/-- C5 (counterexample): on the table with limit 2, the cursor at value 2
(`begin()`) does not move to 3 under `++` — it transitions to the end
state 0, because the final `p <= limit` check also applies to the
candidate 3. -/
theorem claim5_counterexample :
    (((prime_table.build 2).begin)._current = 2) ∧
    ((((prime_table.build 2).begin).inc)._current = 0) ∧
    (((prime_table.build 2).begin).inc)._current ≠ 3 :=
  ⟨rfl, rfl, by decide⟩

/-- C5 (amended): from value 2, `++` takes candidate 3 without a table
lookup and moves there exactly when `3 ≤ limit`, otherwise to the end
state; and from any prime `v ≤ N`, `++` yields the smallest prime `p` with
`v < p ≤ limit`, or the end state if there is none. -/
theorem claim5_advance (N v : Nat) (hvN : v ≤ N) :
    ((((⟨prime_table.build N, 2⟩ : prime_iterator).inc)._current =
        if 3 ≤ N then 3 else 0)) ∧
    (Nat.Prime v →
      (((((⟨prime_table.build N, v⟩ : prime_iterator).inc)._current = 0 ∧
        ∀ u, v < u → u ≤ N → ¬ Nat.Prime u) ∨
       (v < (((⟨prime_table.build N, v⟩ : prime_iterator).inc)._current) ∧
        (((⟨prime_table.build N, v⟩ : prime_iterator).inc)._current) ≤ N ∧
        Nat.Prime (((⟨prime_table.build N, v⟩ : prime_iterator).inc)._current) ∧
        ∀ u, v < u →
          u < (((⟨prime_table.build N, v⟩ : prime_iterator).inc)._current) →
          ¬ Nat.Prime u)))) := by
  constructor
  · have hlim : (prime_table.build N).limit = N := rfl
    simp only [prime_iterator.inc, hlim]
    norm_num
  · intro hv
    exact inc_next_prime N v hv hvN

/-- Witness for C5 at `N = 30`, `v = 13`. -/
theorem claim5_witness :
    (13 ≤ 30) ∧
    (((((⟨prime_table.build 30, 2⟩ : prime_iterator).inc)._current =
        if 3 ≤ 30 then 3 else 0)) ∧
     (Nat.Prime 13 →
      (((((⟨prime_table.build 30, 13⟩ : prime_iterator).inc)._current = 0 ∧
        ∀ u, 13 < u → u ≤ 30 → ¬ Nat.Prime u) ∨
       (13 < (((⟨prime_table.build 30, 13⟩ : prime_iterator).inc)._current) ∧
        (((⟨prime_table.build 30, 13⟩ : prime_iterator).inc)._current) ≤ 30 ∧
        Nat.Prime (((⟨prime_table.build 30, 13⟩ : prime_iterator).inc)._current) ∧
        ∀ u, 13 < u →
          u < (((⟨prime_table.build 30, 13⟩ : prime_iterator).inc)._current) →
          ¬ Nat.Prime u))))) :=
  ⟨by omega, claim5_advance 30 13 (by omega)⟩

/-- C6 (evaluation at the failing input: table limit 1, `lower_bound(1)`):
the result is a non-end cursor at value 2, although no prime `≤ limit`
exists, so it is not "the smallest prime in the table `≥ n`, else
`end()`". -/
theorem claim6_lower_bound_at_empty_table :
    ((prime_table.build 1).lower_bound 1)._current = 2 ∧
    ((prime_table.build 1).lower_bound 1).eq ((prime_table.build 1).endIter) = false ∧
    (∀ p, p ≤ (prime_table.build 1).limit → ¬ Nat.Prime p) := by
  refine ⟨lb_build_one, ?_, ?_⟩
  · unfold prime_iterator.eq
    rw [lb_build_one]
    rfl
  · intro p hp
    have hlim : (prime_table.build 1).limit = 1 := rfl
    rw [hlim] at hp
    interval_cases p
    · exact Nat.not_prime_zero
    · exact Nat.not_prime_one

/-- C7: two cursors compare equal iff both are in the end state
(`_current = 0`); consequently two non-end cursors at the same value
compare unequal, and a non-end cursor is not equal to itself. -/
theorem claim7_equality_iff_both_end :
    (∀ a b : prime_iterator, (a.eq b = true ↔ (a._current = 0 ∧ b._current = 0))) ∧
    (∀ a b : prime_iterator, a._current = b._current → a._current ≠ 0 →
      a.eq b = false) ∧
    (∀ a : prime_iterator, a._current ≠ 0 → a.eq a = false) := by
  refine ⟨?_, ?_, ?_⟩
  · intro a b
    unfold prime_iterator.eq
    rw [Bool.and_eq_true, beq_iff_eq, beq_iff_eq]
  · intro a b hab ha
    simp [prime_iterator.eq, ha]
  · intro a ha
    simp [prime_iterator.eq, ha]

/-- Witness for C7 (the clauses with hypotheses) at `begin()` of the
table with limit 2. -/
theorem claim7_witness :
    (((prime_table.build 2).begin)._current ≠ 0) ∧
    ((prime_table.build 2).begin).eq ((prime_table.build 2).begin) = false :=
  ⟨by decide, claim7_equality_iff_both_end.2.2 ((prime_table.build 2).begin) (by decide)⟩

/-- C8 (counterexample at `N = 2`): the claim says the store is allocated
with `⌈(N+1)/2⌉` bits (for `N = 2` that is `(2+1+1)/2 = 2`), but the code
allocates `(N+1)/2 = 1` bit. -/
theorem claim8_counterexample :
    (prime_table.build 2).table.size = 1 ∧ ((2 + 1 + 1) / 2 : Nat) = 2 ∧
    (prime_table.build 2).table.size ≠ ((2 + 1 + 1) / 2 : Nat) := by
  have h := buildStore_size 2
  have h2 : (prime_table.build 2).table.size = 1 := h
  refine ⟨h2, by norm_num, ?_⟩
  rw [h2]
  norm_num

/-- C8 (amended): for every `N ≥ 0` the packed bit store is allocated with
exactly `⌊(N+1)/2⌋` bits — one bit per odd integer in `[1, N]` — all
initialized to true before sieving begins. -/
theorem claim8_store_size (N : Nat) :
    (prime_table.build N).table.size = (N + 1) / 2 ∧
    (N + 1) / 2 = oddCountUpto N ∧
    (∀ i, (mkBitStore ((N + 1) / 2) true).bits i = true) := by
  refine ⟨buildStore_size N, ?_, fun i => rfl⟩
  rw [oddCountUpto_eq]

/-- C9: for every `n < 6`, `nth_prime_bounds(n)` returns exactly the pair
`(2, 11)`, and for each `n ∈ {1,...,5}` the true `n`-th prime (2, 3, 5, 7,
11 respectively) lies within this inclusive bracket. -/
theorem claim9_bounds_small (n : Nat) (h : n < 6) :
    nth_prime_bounds n = some (2, 11) ∧
    (∀ p, trialDivisionPrime p = true ↔ Nat.Prime p) ∧
    (∀ m, 1 ≤ m → m ≤ 5 → ∃ p, IsNthPrime m p ∧ 2 ≤ p ∧ p ≤ 11) := by
  refine ⟨by simp [nth_prime_bounds, h], trialDivisionPrime_iff, ?_⟩
  intro m h1 h5
  interval_cases m
  · exact ⟨2, ⟨by decide, by decide⟩, by omega, by omega⟩
  · exact ⟨3, ⟨by decide, by decide⟩, by omega, by omega⟩
  · exact ⟨5, ⟨by decide, by decide⟩, by omega, by omega⟩
  · exact ⟨7, ⟨by decide, by decide⟩, by omega, by omega⟩
  · exact ⟨11, ⟨by decide, by decide⟩, by omega, by omega⟩

/-- Witness for C9 at `n = 5`. -/
theorem claim9_witness :
    (5 < 6) ∧
    (nth_prime_bounds 5 = some (2, 11) ∧
     (∀ p, trialDivisionPrime p = true ↔ Nat.Prime p) ∧
     (∀ m, 1 ≤ m → m ≤ 5 → ∃ p, IsNthPrime m p ∧ 2 ≤ p ∧ p ≤ 11)) :=
  ⟨by omega, claim9_bounds_small 5 (by omega)⟩

/-- C10: over a built table with limit `N ≥ 2`, every cursor reachable
from `begin()` or `lower_bound(n)` by `++` applications (in non-end
states, the asserted precondition of `++`) is either the end state
(`_current = 0`) or positioned at a prime `p` with `2 ≤ p ≤ N`; in
particular it never exposes 1, an even value other than 2, or a composite
value. -/
theorem claim10_cursor_invariant (N : Nat) (hN : 2 ≤ N) (it : prime_iterator)
    (hr : Reachable (prime_table.build N) it) :
    it._current = 0 ∨
      (2 ≤ it._current ∧ it._current ≤ N ∧ Nat.Prime it._current ∧
       it._current ≠ 1 ∧ (it._current % 2 = 0 → it._current = 2)) := by
  rcases (reachable_cursorInv N hN it hr).2 with hz | ⟨h2, hle, hp⟩
  · exact Or.inl hz
  · refine Or.inr ⟨h2, hle, hp, by omega, ?_⟩
    intro he
    exact (Nat.Prime.even_iff hp).mp (Nat.even_iff.mpr he)

/-- Witness for C10 at `N = 2` with the cursor `begin()`. -/
theorem claim10_witness :
    ((2:Nat) ≤ 2) ∧
    Reachable (prime_table.build 2) ((prime_table.build 2).begin) ∧
    (((prime_table.build 2).begin)._current = 0 ∨
      (2 ≤ ((prime_table.build 2).begin)._current ∧
       ((prime_table.build 2).begin)._current ≤ 2 ∧
       Nat.Prime ((prime_table.build 2).begin)._current ∧
       ((prime_table.build 2).begin)._current ≠ 1 ∧
       (((prime_table.build 2).begin)._current % 2 = 0 →
         ((prime_table.build 2).begin)._current = 2))) :=
  ⟨by omega, Reachable.begin,
    claim10_cursor_invariant 2 (by omega) ((prime_table.build 2).begin) Reachable.begin⟩

end euler
